import Mathlib

/-!
Verification of the Petri-net workflow engine core: a shallow embedding of
the kernel (`Place`/`Token`/`Transition.Fire`/`Transition.CanFire`), the
bounded-fixpoint driver (`PetriNet.Run`), the workflow validator
(`workflow.Validate`) and the workflow compiler (`Compiler.Compile` /
`compileGateway`), together with theorems settling the spec claims.

Modelling conventions:
- Go pointers to `Place` become place identifiers (`String`); the mutable
  token state of all places is a `Marking : String → List Token`; the
  (immutable) capacities are a separate map `String → Int` (`-1` =
  unlimited, as in the source).
- Token identity is the `Token` value (`id` plus payload); `interface{}`
  payloads are modelled by the small inductive `TokData` (nil pointer,
  string tag as used for resource tokens, or an opaque object).
- Guards are `List Token → Bool`, actions are
  `List Token → Except Unit (List Token)`; a cancelled context surfaces,
  as in the source, as an action returning an error.
- Go `map` iteration order is unspecified; wherever the source ranges over
  a map whose iteration order can matter (`resourcePlaces`,
  `consumedPerPlace` in the no-action branch) we fix the canonical
  first-occurrence order of the corresponding arc list.  All theorems that
  depend on concrete runs use at most one such place, so the choice is
  innocuous; order-independent facts (marking restoration, token counts)
  do not depend on it.
- The concurrent firing of the enabled snapshot in `PetriNet.Run` is
  linearizable: every `Fire` takes all locks of the places it touches (in
  a deterministic order) for its whole critical section, so a concurrent
  round is equivalent to firing the snapshot sequentially in some order.
  `runNet` fires the snapshot in list order, which is one admissible
  schedule.
-/

namespace PNet

/-- Payload of a token (`Token.Data interface{}` in the source): the nil
interface, a string tag (used for resource tokens), or some other opaque
object. -/
inductive TokData where
  | nil : TokData
  | str (s : String) : TokData
  | obj : TokData
deriving DecidableEq

/-- `Token` from `core/petrinet`: stable identifier plus opaque payload. -/
structure Token where
  id : String
  data : TokData
deriving DecidableEq

/-- `Arc`: a weighted reference to a place (the Go pointer becomes the
place identifier). -/
structure Arc where
  place : String
  weight : Nat
deriving DecidableEq

/-- The token state of all places: place identifier to its ordered token
sequence (head = front of the Go slice). -/
def Marking : Type := String → List Token

/-- Capacities of all places (`Place.Capacity`); negative = unlimited. -/
def Caps : Type := String → Int

/-- `Transition` from `core/petrinet`: arcs, optional guard, optional
action. -/
structure Transition where
  id : String
  name : String
  inputArcs : List Arc
  outputArcs : List Arc
  guard : Option (List Token → Bool) := none
  action : Option (List Token → Except Unit (List Token)) := none

/-- Pointwise update of a marking at one place. -/
def updMark (m : Marking) (p : String) (ts : List Token) : Marking :=
  fun q => if q = p then ts else m q

/-- Per-place weight sum of an arc list (the `inputCounts` /
`outputCounts` maps that `Fire` builds across duplicate arcs). -/
def sumW (arcs : List Arc) (p : String) : Nat :=
  ((arcs.filter (fun a => a.place = p)).map (fun a => a.weight)).sum

/-- Total weight of an arc list (the `totalNeeded` accumulation). -/
def totalW (arcs : List Arc) : Nat :=
  (arcs.map (fun a => a.weight)).sum

/-- `Transition.CanFire`: every input arc, checked individually, finds at
least its own weight in its source place. -/
def canFire (m : Marking) (t : Transition) : Bool :=
  t.inputArcs.all (fun a => a.weight ≤ (m a.place).length)

/-- The input-availability loop of `Fire`: for every place occurring in
`inputCounts`, the current count covers the summed need. -/
def availOk (t : Transition) (m : Marking) : Bool :=
  t.inputArcs.all (fun a => sumW t.inputArcs a.place ≤ (m a.place).length)

/-- The per-place capacity test of `Fire`'s output loop:
`effective = current − input_sum + output_sum`; fails when the place is
bounded and `effective` exceeds the capacity. -/
def arcCapOk (caps : Caps) (t : Transition) (m : Marking) (a : Arc) : Bool :=
  let eff : Int := ((m a.place).length : Int)
      - (sumW t.inputArcs a.place : Int) + (sumW t.outputArcs a.place : Int)
  !(decide (0 ≤ caps a.place ∧ caps a.place < eff))

/-- The output-capacity loop of `Fire`: every place in `outputCounts`
passes the `effective > capacity` test. -/
def capOk (caps : Caps) (t : Transition) (m : Marking) : Bool :=
  t.outputArcs.all (arcCapOk caps t m)

/-- The token-consumption loop of `Fire`: walk the input arcs in order,
take each arc's weight from the head of its place.  Returns the marking
after consumption, the concatenated `inputTokens` tuple (arc order), and
the `consumedPerPlace` map (tokens appended in arc-processing order). -/
def consumeLoop : List Arc → Marking → Marking × List Token × (String → List Token)
  | [], m => (m, [], fun _ => [])
  | a :: rest, m =>
      let taken := (m a.place).take a.weight
      let m1 := updMark m a.place ((m a.place).drop a.weight)
      let r := consumeLoop rest m1
      (r.1, taken ++ r.2.1,
        fun q => (if q = a.place then taken else []) ++ r.2.2 q)

/-- The rollback of `Fire` (guard failure / action failure): every
consumed batch is put back at the head of its source place. -/
def restoreM (cons : String → List Token) (m : Marking) : Marking :=
  fun p => cons p ++ m p

/-- First-occurrence deduplication of a list of place identifiers (a
canonical iteration order for the source's Go maps keyed by place). -/
def firstDedupAux : List String → List String → List String
  | [], _ => []
  | x :: xs, seen =>
      if x ∈ seen then firstDedupAux xs seen
      else x :: firstDedupAux xs (x :: seen)

def firstDedup (l : List String) : List String := firstDedupAux l []

/-- `resourcePlaces` in `Fire`: places that occur among both the output
and the input arcs (iterated in first-occurrence output-arc order). -/
def resourcePlaces (t : Transition) : List String :=
  (firstDedup (t.outputArcs.map (fun a => a.place))).filter
    (fun p => p ∈ t.inputArcs.map (fun a => a.place))

/-- The non-resource consumed places used by `Fire`'s no-action
pass-through branch (first-occurrence input-arc order). -/
def passThroughPlaces (t : Transition) : List String :=
  (firstDedup (t.inputArcs.map (fun a => a.place))).filter
    (fun p => p ∉ resourcePlaces t)

/-- Prefix of the identifiers of synthesized generic tokens. -/
def genPrefix : String := "gen-"

/-- The generic-token synthesis loop of `Fire`: append `k` placeholder
tokens, each carrying the identifier `gen-<current length>`. -/
def genFill : Nat → Nat → List Token
  | 0, _ => []
  | k + 1, i => Token.mk (genPrefix ++ toString i) TokData.nil :: genFill k (i + 1)

/-- The output-distribution loop of `Fire`: each output arc, in order,
receives the next `weight` tokens of the output sequence (appended at the
tail of its place); any surplus after the last arc is dropped. -/
def distribute : List Arc → List Token → Marking → Marking
  | [], _, m => m
  | a :: rest, toks, m =>
      distribute rest (toks.drop a.weight)
        (updMark m a.place (m a.place ++ toks.take a.weight))

/-- Steps 7–10 of `Fire` on the success path: return the consumed tokens
of the resource places, pass through the remaining consumed tokens when no
action is present, pad with generic tokens up to the total output need,
and distribute positionally over the output arcs. -/
def depositPhase (t : Transition) (m1 : Marking) (cons : String → List Token)
    (actionOut : List Token) (hasAction : Bool) : Marking :=
  let out1 := actionOut ++ (resourcePlaces t).flatMap cons
  let out2 := if hasAction then out1
              else out1 ++ (passThroughPlaces t).flatMap cons
  let need := totalW t.outputArcs
  let outFull := out2 ++ genFill (need - out2.length) out2.length
  distribute t.outputArcs outFull m1

/-- Result of one `Fire` call: `ErrNotReady`, a wrapped action error, or
success. -/
inductive FireResult where
  | notReady : FireResult
  | actionFailed : FireResult
  | fired : FireResult
deriving DecidableEq

/-- Whether the guard is present and rejects the consumed tuple. -/
def guardRejects (t : Transition) (toks : List Token) : Bool :=
  match t.guard with
  | some g => !(g toks)
  | none => false

/-- `Transition.Fire` (the `ErrNotReady` version): availability and
capacity pre-checks, consumption, guard, action, rollback on failure,
resource return, padding and distribution on success. -/
def fire (caps : Caps) (t : Transition) (m : Marking) : FireResult × Marking :=
  if availOk t m = false then (FireResult.notReady, m)
  else if capOk caps t m = false then (FireResult.notReady, m)
  else
    let r := consumeLoop t.inputArcs m
    let m1 := r.1
    let inputTokens := r.2.1
    let cons := r.2.2
    if guardRejects t inputTokens then (FireResult.notReady, restoreM cons m1)
    else
      match t.action with
      | some f =>
          match f inputTokens with
          | Except.error _ => (FireResult.actionFailed, restoreM cons m1)
          | Except.ok out => (FireResult.fired, depositPhase t m1 cons out true)
      | none => (FireResult.fired, depositPhase t m1 cons [] false)

/-- `Place.AddTokens`: fails (without mutating) when the place is bounded
and the result would exceed its capacity; otherwise appends in order. -/
def addTokens (caps : Caps) (m : Marking) (p : String) (ts : List Token) :
    Except Unit Marking :=
  if 0 ≤ caps p ∧ caps p < ((m p).length + ts.length : Int) then Except.error ()
  else Except.ok (updMark m p (m p ++ ts))

/-- Errors a bounded-fixpoint run can surface (`PetriNet.Run`): a
forwarded `Fire` error, or the iteration-limit sentinel. -/
inductive RunError where
  | notReady : RunError
  | actionFailed : RunError
  | iterationLimit : RunError
deriving DecidableEq

/-- Map a failed `Fire` outcome to the error `Run`'s goroutine forwards. -/
def fireErrors : FireResult → List RunError
  | FireResult.fired => []
  | FireResult.notReady => [RunError.notReady]
  | FireResult.actionFailed => [RunError.actionFailed]

/-- One concurrent round of `PetriNet.Run`: every transition of the
enabled snapshot is fired (here: in list order, one admissible
linearization of the lock-serialized goroutines); all errors are
collected. -/
def fireRound (caps : Caps) : List Transition → Marking → Marking × List RunError
  | [], m => (m, [])
  | t :: rest, m =>
      let r := fire caps t m
      let rr := fireRound caps rest r.2
      (rr.1, fireErrors r.1 ++ rr.2)

/-- `PetriNet.Run`, the bounded fixpoint driver: snapshot the enabled set
via `CanFire`; stop when it is empty; otherwise fire the whole snapshot,
and if any firing returned an error, abort the run with the first error
drained from the error channel.  The iteration bound (1000 in the source)
is the fuel argument. -/
def runNet (caps : Caps) (ts : List Transition) : Nat → Marking → Option RunError × Marking
  | 0, m => (some RunError.iterationLimit, m)
  | fuel + 1, m =>
      let fireable := ts.filter (fun t => canFire m t)
      if fireable.isEmpty then (none, m)
      else
        let r := fireRound caps fireable m
        match r.2 with
        | e :: _ => (some e, r.1)
        | [] => runNet caps ts fuel r.1

/-- The capacity invariant: every bounded place holds at most its
capacity. -/
def capInv (caps : Caps) (m : Marking) : Prop :=
  ∀ p, 0 ≤ caps p → ((m p).length : Int) ≤ caps p

/-- Markings reachable from an initial marking through any sequence of
`Fire` and successful `AddTokens` operations on the net's transitions. -/
inductive Reach (caps : Caps) (ts : List Transition) : Marking → Marking → Prop where
  | refl (m : Marking) : Reach caps ts m m
  | fireStep (m m1 : Marking) (t : Transition) (ht : t ∈ ts)
      (h : Reach caps ts m m1) : Reach caps ts m (fire caps t m1).2
  | addStep (m m1 m2 : Marking) (p : String) (toks : List Token)
      (h : Reach caps ts m m1) (hok : addTokens caps m1 p toks = Except.ok m2) :
      Reach caps ts m m2

/-- Modelled from the spec (§4.3 Enablement): a transition is enabled iff
for every input arc the source place's count covers the arc weight summed
across duplicate input arcs to the same place, and for every output arc
the destination place can accept the net production (output weight sum
minus input weight sum to that place). -/
def specEnabled (caps : Caps) (t : Transition) (m : Marking) : Bool :=
  t.inputArcs.all (fun a => sumW t.inputArcs a.place ≤ (m a.place).length)
  && t.outputArcs.all (fun a =>
      decide (caps a.place < 0)
      || decide (((m a.place).length : Int)
          + ((sumW t.outputArcs a.place : Int) - (sumW t.inputArcs a.place : Int))
          ≤ caps a.place))

end PNet

namespace WF

/-- `workflow.Resource`. -/
structure Resource where
  id : String
  type : String
  capacity : Int
deriving DecidableEq

/-- `workflow.Context` (shared-state place declaration). -/
structure ContextDecl where
  id : String
  type : String
  capacity : Int
deriving DecidableEq

/-- `workflow.Channel`. -/
structure Channel where
  id : String
  capacity : Int
  type : String
deriving DecidableEq

/-- `workflow.Task` (the `Action` closure and the opaque config are not
needed by the structural claims and are omitted from the record; the
compiler's wrapping of the action is discussed with the firing claims). -/
structure Task where
  id : String
  type : String
  input : String
  output : String
  inputs : List String
  outputs : List String
  requires : List (String × Nat)
  context : String
deriving DecidableEq

/-- `workflow.Gateway`. -/
structure Gateway where
  id : String
  type : String
  inputs : List String
  outputs : List String
  waitFor : List String
deriving DecidableEq

/-- `workflow.Workflow`. -/
structure Workflow where
  name : String
  resources : List Resource
  contexts : List ContextDecl
  channels : List Channel
  tasks : List Task
  gateways : List Gateway

/-- The distinct validation failures of `workflow.Validate`, one per
`return fmt.Errorf` site. -/
inductive ValErr where
  | emptyResourceId : ValErr
  | dupResource (id : String) : ValErr
  | emptyChannelId : ValErr
  | dupChannel (id : String) : ValErr
  | emptyContextId : ValErr
  | dupContext (id : String) : ValErr
  | contextVsResource (id : String) : ValErr
  | contextVsChannel (id : String) : ValErr
  | emptyTaskId : ValErr
  | dupTask (id : String) : ValErr
  | missingInputChannel (task ch : String) : ValErr
  | missingOutputChannel (task ch : String) : ValErr
  | missingResource (task res : String) : ValErr
  | missingContext (task ctx : String) : ValErr
  | emptyGatewayId : ValErr
  | dupGateway (id : String) : ValErr
  | emptyWaitEntry (gw : String) : ValErr
  | missingTask (gw task : String) : ValErr
deriving DecidableEq

/-- The resource loop of `Validate`: empty-id and duplicate checks,
accumulating the set of resource identifiers. -/
def checkResources : List Resource → List String → Except ValErr (List String)
  | [], acc => Except.ok acc
  | r :: rest, acc =>
      if r.id = "" then Except.error ValErr.emptyResourceId
      else if r.id ∈ acc then Except.error (ValErr.dupResource r.id)
      else checkResources rest (acc ++ [r.id])

/-- The channel loop of `Validate`. -/
def checkChannels : List Channel → List String → Except ValErr (List String)
  | [], acc => Except.ok acc
  | c :: rest, acc =>
      if c.id = "" then Except.error ValErr.emptyChannelId
      else if c.id ∈ acc then Except.error (ValErr.dupChannel c.id)
      else checkChannels rest (acc ++ [c.id])

/-- The context loop of `Validate`: empty-id, duplicate, and collision
checks against the resource and channel identifier sets. -/
def checkContexts (resourceIDs channelIDs : List String) :
    List ContextDecl → List String → Except ValErr (List String)
  | [], acc => Except.ok acc
  | c :: rest, acc =>
      if c.id = "" then Except.error ValErr.emptyContextId
      else if c.id ∈ acc then Except.error (ValErr.dupContext c.id)
      else if c.id ∈ resourceIDs then Except.error (ValErr.contextVsResource c.id)
      else if c.id ∈ channelIDs then Except.error (ValErr.contextVsChannel c.id)
      else checkContexts resourceIDs channelIDs rest (acc ++ [c.id])

/-- Reference checks for one task (the body of `Validate`'s task loop
after the id checks). -/
def checkTaskRefs (channelIDs resourceIDs contextIDs : List String) (t : Task) :
    Except ValErr Unit :=
  if t.input ≠ "" ∧ t.input ∉ channelIDs then
    Except.error (ValErr.missingInputChannel t.id t.input)
  else match t.inputs.find? (fun i => i ∉ channelIDs) with
  | some i => Except.error (ValErr.missingInputChannel t.id i)
  | none =>
    if t.output ≠ "" ∧ t.output ∉ channelIDs then
      Except.error (ValErr.missingOutputChannel t.id t.output)
    else match t.outputs.find? (fun o => o ∉ channelIDs) with
    | some o => Except.error (ValErr.missingOutputChannel t.id o)
    | none =>
      match t.requires.find? (fun rq => rq.1 ∉ resourceIDs) with
      | some rq => Except.error (ValErr.missingResource t.id rq.1)
      | none =>
        if t.context ≠ "" ∧ t.context ∉ contextIDs then
          Except.error (ValErr.missingContext t.id t.context)
        else Except.ok ()

/-- The task loop of `Validate`. -/
def checkTasks (channelIDs resourceIDs contextIDs : List String) :
    List Task → List String → Except ValErr (List String)
  | [], acc => Except.ok acc
  | t :: rest, acc =>
      if t.id = "" then Except.error ValErr.emptyTaskId
      else if t.id ∈ acc then Except.error (ValErr.dupTask t.id)
      else
        match checkTaskRefs channelIDs resourceIDs contextIDs t with
        | Except.error e => Except.error e
        | Except.ok _ =>
            checkTasks channelIDs resourceIDs contextIDs rest (acc ++ [t.id])

/-- The gateway loop of `Validate`: id checks, then every entry of
`inputs ++ wait_for` must be non-empty and name an existing task. -/
def checkGateways (taskIDs : List String) :
    List Gateway → List String → Except ValErr Unit
  | [], _ => Except.ok ()
  | g :: rest, acc =>
      if g.id = "" then Except.error ValErr.emptyGatewayId
      else if g.id ∈ acc then Except.error (ValErr.dupGateway g.id)
      else
        match (g.inputs ++ g.waitFor).find? (fun w => w = "" ∨ w ∉ taskIDs) with
        | some w =>
            if w = "" then Except.error (ValErr.emptyWaitEntry g.id)
            else Except.error (ValErr.missingTask g.id w)
        | none => checkGateways taskIDs rest (acc ++ [g.id])

/-- `workflow.Validate`: the five section loops in source order. -/
def validate (wf : Workflow) : Except ValErr Unit :=
  match checkResources wf.resources [] with
  | Except.error e => Except.error e
  | Except.ok resourceIDs =>
    match checkChannels wf.channels [] with
    | Except.error e => Except.error e
    | Except.ok channelIDs =>
      match checkContexts resourceIDs channelIDs wf.contexts [] with
      | Except.error e => Except.error e
      | Except.ok contextIDs =>
        match checkTasks channelIDs resourceIDs contextIDs wf.tasks [] with
        | Except.error e => Except.error e
        | Except.ok taskIDs => checkGateways taskIDs wf.gateways []

/-- A compiled place: identifier, display name, capacity, seeded tokens. -/
structure CPlace where
  id : String
  name : String
  capacity : Int
  tokens : List PNet.Token
deriving DecidableEq

/-- The structural part of a compiled transition (the compiler also
installs the wrapped task action; the structural claims only concern the
arc wiring, and the firing claims use the kernel `Transition` directly). -/
structure TShape where
  id : String
  name : String
  inputArcs : List PNet.Arc
  outputArcs : List PNet.Arc
deriving DecidableEq

/-- A compiled net: the `Places` and `Transitions` registries, keyed by
identifier (associativity lists standing for the Go maps). -/
structure CNet where
  name : String
  places : List CPlace
  transitions : List TShape
deriving DecidableEq

/-- `PetriNet.AddPlace`: insert keyed by id, overwriting any place that
already carries the same identifier. -/
def addPlaceNet (net : CNet) (pl : CPlace) : CNet :=
  if net.places.any (fun q => q.id = pl.id) then
    { net with places := net.places.map (fun q => if q.id = pl.id then pl else q) }
  else { net with places := net.places ++ [pl] }

/-- `PetriNet.AddTransition`: insert keyed by id, overwriting. -/
def addTransNet (net : CNet) (t : TShape) : CNet :=
  if net.transitions.any (fun q => q.id = t.id) then
    { net with transitions := net.transitions.map (fun q => if q.id = t.id then t else q) }
  else { net with transitions := net.transitions ++ [t] }

/-- `net.Places[id]` lookup. -/
def lookupPlace (net : CNet) (id : String) : Option CPlace :=
  net.places.find? (fun q => q.id = id)

/-- Membership of a place id in the net's registry. -/
def hasPlace (net : CNet) (id : String) : Bool :=
  net.places.any (fun q => q.id = id)

/-- `net.Transitions[id]` lookup. -/
def lookupTrans (net : CNet) (id : String) : Option TShape :=
  net.transitions.find? (fun q => q.id = id)

/-- The seed tokens of a resource place: `capacity` tokens with ids
`<id>-token-<i>` and the resource identifier as payload. -/
def resourceSeed (id : String) : Nat → Nat → List PNet.Token
  | 0, _ => []
  | k + 1, i =>
      PNet.Token.mk (id ++ "-token-" ++ toString i) (PNet.TokData.str id)
        :: resourceSeed id k (i + 1)

/-- Compiler step 1: one place per resource, capacity = declared
capacity, preloaded with `capacity` tagged tokens when positive. -/
def compileResources (net : CNet) : List Resource → CNet
  | [] => net
  | r :: rest =>
      let toks := if 0 < r.capacity then resourceSeed r.id r.capacity.toNat 0 else []
      compileResources
        (addPlaceNet net (CPlace.mk r.id r.id r.capacity toks)) rest

/-- Compiler step 2: one place per context, seeded with a single
context token (`<id>-token-0`, mutable-map payload) unless capacity is 0. -/
def compileContexts (net : CNet) : List ContextDecl → CNet
  | [] => net
  | c :: rest =>
      let toks := if c.capacity ≠ 0 then
          [PNet.Token.mk (c.id ++ "-token-0") PNet.TokData.obj] else []
      compileContexts
        (addPlaceNet net (CPlace.mk c.id c.id c.capacity toks)) rest

/-- Compiler step 3: one empty place per channel. -/
def compileChannels (net : CNet) : List Channel → CNet
  | [] => net
  | c :: rest =>
      compileChannels (addPlaceNet net (CPlace.mk c.id c.id c.capacity [])) rest

/-- Suffix of per-task completion-signal places. -/
def doneSuffix : String := "_done"

/-- Suffix of barrier completion places. -/
def completeSuffix : String := "_complete"

/-- The completion-signal step of compiler step 4: create the
`<task_id>_done` place (unbounded) unless it already exists. -/
def ensureDone (net : CNet) (id : String) : CNet :=
  if hasPlace net (id ++ doneSuffix) then net
  else addPlaceNet net (CPlace.mk (id ++ doneSuffix) (id ++ " Done") (-1) [])

/-- The arc wiring of compiler step 4 for one task: context
(consume-and-re-emit), input channels, resource requirements (in and out
with equal weight), output channels, and the `<task_id>_done` completion
signal.  Fails when a declared context has no place in the net. -/
def compileTaskStep (net : CNet) (t : Task) : Except String CNet :=
  if t.context ≠ "" ∧ hasPlace net t.context = false then
    Except.error (t.id ++ " references missing context place " ++ t.context)
  else
    let ctxArcs : List PNet.Arc :=
      if t.context ≠ "" then [PNet.Arc.mk t.context 1] else []
    let inArcs := ctxArcs
      ++ (if t.input ≠ "" then [PNet.Arc.mk t.input 1] else [])
      ++ t.inputs.map (fun i => PNet.Arc.mk i 1)
      ++ (t.requires.filter (fun rq => hasPlace net rq.1)).map
          (fun rq => PNet.Arc.mk rq.1 rq.2)
    let outArcsNoDone := ctxArcs
      ++ (t.requires.filter (fun rq => hasPlace net rq.1)).map
          (fun rq => PNet.Arc.mk rq.1 rq.2)
      ++ (if t.output ≠ "" then [PNet.Arc.mk t.output 1] else [])
      ++ t.outputs.map (fun o => PNet.Arc.mk o 1)
    let net1 := ensureDone net t.id
    let shape := TShape.mk t.id t.id inArcs
      (outArcsNoDone ++ [PNet.Arc.mk (t.id ++ doneSuffix) 1])
    Except.ok (addTransNet net1 shape)

/-- Compiler step 4 over all tasks. -/
def compileTasks (net : CNet) : List Task → Except String CNet
  | [] => Except.ok net
  | t :: rest =>
      match compileTaskStep net t with
      | Except.error e => Except.error e
      | Except.ok net1 => compileTasks net1 rest

/-- `Compiler.compileGateway`: for a barrier, take `inputs` (falling back
to `wait_for`); when non-empty, emit the `<gateway_id>_complete` place
(capacity 1) and one transition with an input arc of weight 1 from each
referenced task's `_done` place and a single output arc of weight 1 to
the complete place; a missing `_done` place is a compile error.  Other
gateway kinds emit nothing. -/
def waitForOf (g : Gateway) : List String :=
  if g.inputs.isEmpty then g.waitFor else g.inputs

def compileGateway (g : Gateway) (net : CNet) : Except String CNet :=
  if g.type = "barrier" then
    let waitFor := waitForOf g
    if waitFor.isEmpty then Except.ok net
    else
      let completeId := g.id ++ completeSuffix
      let net1 := addPlaceNet net (CPlace.mk completeId (g.id ++ " Complete") 1 [])
      match waitFor.find? (fun w => !(hasPlace net1 (w ++ doneSuffix))) with
      | some w =>
          Except.error ("barrier " ++ g.id ++ " waits on missing completion place "
            ++ w ++ doneSuffix)
      | none =>
          let shape := TShape.mk g.id g.id
            (waitFor.map (fun w => PNet.Arc.mk (w ++ doneSuffix) 1))
            [PNet.Arc.mk completeId 1]
          Except.ok (addTransNet net1 shape)
  else Except.ok net

/-- Compiler step 5 over all gateways. -/
def compileGateways (net : CNet) : List Gateway → Except String CNet
  | [] => Except.ok net
  | g :: rest =>
      match compileGateway g net with
      | Except.error e => Except.error e
      | Except.ok net1 => compileGateways net1 rest

/-- `Compiler.Compile`: resources, contexts, channels, tasks, gateways in
source order. -/
def compile (wf : Workflow) : Except String CNet :=
  let net0 := CNet.mk wf.name [] []
  let net1 := compileResources net0 wf.resources
  let net2 := compileContexts net1 wf.contexts
  let net3 := compileChannels net2 wf.channels
  match compileTasks net3 wf.tasks with
  | Except.error e => Except.error e
  | Except.ok net4 => compileGateways net4 wf.gateways

end WF

section ConcreteInputs

open PNet WF

def srcId : String := "src"

def sinkId : String := "sink"

def tokS : Token := ⟨"tok-src", TokData.nil⟩

def capsRun : Caps := fun _ => -1

/-- First consumer of the single `src` token. -/
def tRun1 : Transition :=
  { id := "t1", name := "t1", inputArcs := [Arc.mk srcId 1],
    outputArcs := [Arc.mk sinkId 1] }

/-- Second consumer of the single `src` token: in the snapshot round it
loses the race and its `Fire` returns `ErrNotReady`. -/
def tRun2 : Transition :=
  { id := "t2", name := "t2", inputArcs := [Arc.mk srcId 1],
    outputArcs := [Arc.mk sinkId 1] }

def mRun : Marking := fun q => if q = srcId then [tokS] else []

def dupId : String := "dup"

def tokD : Token := ⟨"tok-dup", TokData.nil⟩

/-- A transition with two input arcs of weight 1 from the same place. -/
def tDup : Transition :=
  { id := "tdup", name := "tdup", inputArcs := [Arc.mk dupId 1, Arc.mk dupId 1],
    outputArcs := [] }

def mDup : Marking := fun q => if q = dupId then [tokD] else []

def capsDup : Caps := fun _ => -1

def guardId : String := "gsrc"

def tokG : Token := ⟨"tok-guard", TokData.nil⟩

/-- A transition whose guard always rejects. -/
def tGuard : Transition :=
  { id := "tg", name := "tg", inputArcs := [Arc.mk guardId 1],
    outputArcs := [], guard := some (fun _ => false) }

def mGuard : Marking := fun q => if q = guardId then [tokG] else []

def capsGuard : Caps := fun _ => -1

def apiId : String := "api_tokens"

def pendingId : String := "pending"

def completedId : String := "completed"

def permitTok : Token := ⟨"token-0", TokData.nil⟩

def reqTok : Token := ⟨"req-0", TokData.obj⟩

def resultTok : Token := ⟨"result-0", TokData.obj⟩

/-- The `api_call` transition of the rate-limiting example: consume one
permit and one request, return the permit (pass-through place) and emit
one result; the action returns the permit token followed by the result
token. -/
def tApi : Transition :=
  { id := "api_call", name := "Make API Call",
    inputArcs := [Arc.mk apiId 1, Arc.mk pendingId 1],
    outputArcs := [Arc.mk completedId 1, Arc.mk apiId 1],
    action := some (fun toks => Except.ok (toks.take 1 ++ [resultTok])) }

def capsApi : Caps := fun q => if q = apiId then 3 else -1

def mApi : Marking :=
  fun q => if q = apiId then [permitTok] else if q = pendingId then [reqTok] else []

def res5Id : String := "res5"

def src5Id : String := "src5"

def full5Id : String := "full5"

def tokR5 : Token := ⟨"tok-r5", TokData.nil⟩

def tokS5 : Token := ⟨"tok-s5", TokData.nil⟩

/-- A transition with a pass-through resource place (`res5`, equal summed
weights) and an output arc into a capacity-0 place (`full5`). -/
def tCap : Transition :=
  { id := "tcap", name := "tcap",
    inputArcs := [Arc.mk res5Id 1, Arc.mk src5Id 1],
    outputArcs := [Arc.mk res5Id 1, Arc.mk full5Id 1] }

def capsCap : Caps :=
  fun q => if q = res5Id then 1 else if q = full5Id then 0 else -1

def mCap : Marking :=
  fun q => if q = res5Id then [tokR5] else if q = src5Id then [tokS5] else []

def a6Id : String := "a6"

def b6Id : String := "b6"

def tok6 : Token := ⟨"tok-6", TokData.nil⟩

def t6 : Transition :=
  { id := "t6", name := "t6", inputArcs := [Arc.mk a6Id 1],
    outputArcs := [Arc.mk b6Id 1] }

def caps6 : Caps := fun q => if q = b6Id then 2 else -1

def m6 : Marking := fun q => if q = a6Id then [tok6] else []

/-- A workflow whose resource and channel sections share the identifier
`x`. -/
def wfResChan : Workflow :=
  { name := "collide", resources := [⟨"x", "semaphore", 1⟩], contexts := [],
    channels := [⟨"x", 1, "fifo"⟩], tasks := [], gateways := [] }

def in9Id : String := "in9"

def out9aId : String := "out9a"

def out9bId : String := "out9b"

def tok9 : Token := ⟨"tok-9", TokData.nil⟩

def outTok9 : Token := ⟨"out-9", TokData.obj⟩

/-- The action of the padding example: one returned token against a total
output need of two. -/
def f9 : List Token → Except Unit (List Token) := fun _ => Except.ok [outTok9]

def t9 : Transition :=
  { id := "t9", name := "t9", inputArcs := [Arc.mk in9Id 1],
    outputArcs := [Arc.mk out9aId 1, Arc.mk out9bId 1], action := some f9 }

def caps9 : Caps := fun _ => -1

def m9 : Marking := fun q => if q = in9Id then [tok9] else []

/-- The barrier gateway of scenario S5: wait for tasks `pa`, `pb`, `pc`. -/
def gBar : Gateway :=
  { id := "g", type := "barrier", inputs := [], outputs := [],
    waitFor := ["pa", "pb", "pc"] }

/-- A net already holding the three `_done` completion places. -/
def netBar : CNet :=
  { name := "s5",
    places := [⟨"pa_done", "pa Done", -1, []⟩, ⟨"pb_done", "pb Done", -1, []⟩,
      ⟨"pc_done", "pc Done", -1, []⟩],
    transitions := [] }

/-- The S5 workflow: three tasks and one barrier gateway waiting on all
three. -/
def wfS5 : Workflow :=
  { name := "s5wf", resources := [], contexts := [],
    channels := [],
    tasks := [
      { id := "pa", type := "work", input := "", output := "", inputs := [],
        outputs := [], requires := [], context := "" },
      { id := "pb", type := "work", input := "", output := "", inputs := [],
        outputs := [], requires := [], context := "" },
      { id := "pc", type := "work", input := "", output := "", inputs := [],
        outputs := [], requires := [], context := "" }],
    gateways := [gBar] }

end ConcreteInputs

namespace PNet

theorem sumW_cons (a : Arc) (arcs : List Arc) (p : String) :
    sumW (a :: arcs) p = (if a.place = p then a.weight else 0) + sumW arcs p := by
  by_cases h : a.place = p <;> simp [sumW, h]

theorem sumW_of_not_mem (arcs : List Arc) (p : String)
    (h : ∀ a ∈ arcs, a.place ≠ p) : sumW arcs p = 0 := by
  unfold sumW
  have : arcs.filter (fun a => a.place = p) = [] := by
    rw [List.filter_eq_nil_iff]
    intro a ha
    simpa using h a ha
  simp [this]

theorem totalW_cons (a : Arc) (arcs : List Arc) :
    totalW (a :: arcs) = a.weight + totalW arcs := by
  simp [totalW]

/-- After the consumption loop, putting every consumed batch back at the
head of its place reconstructs the original marking exactly. -/
theorem consumeLoop_restore (arcs : List Arc) (m : Marking) (p : String) :
    (consumeLoop arcs m).2.2 p ++ (consumeLoop arcs m).1 p = m p := by
  induction arcs generalizing m with
  | nil => simp [consumeLoop]
  | cons a rest ih =>
      simp only [consumeLoop, List.append_assoc]
      rw [ih]
      by_cases h : p = a.place
      · subst h
        simp [updMark, List.take_append_drop]
      · simp [updMark, h]

/-- The rollback marking of a failed firing equals the pre-fire marking. -/
theorem restore_consume (arcs : List Arc) (m : Marking) :
    restoreM (consumeLoop arcs m).2.2 (consumeLoop arcs m).1 = m := by
  funext p
  exact consumeLoop_restore arcs m p

/-- Token counts after the consumption loop: each place loses its summed
input weight. -/
theorem consumeLoop_len (arcs : List Arc) (m : Marking) (p : String) :
    ((consumeLoop arcs m).1 p).length = (m p).length - sumW arcs p := by
  induction arcs generalizing m with
  | nil => simp [consumeLoop, sumW]
  | cons a rest ih =>
      rw [sumW_cons]
      simp only [consumeLoop]
      rw [ih]
      by_cases h : a.place = p
      · simp [updMark, h, Nat.sub_sub]
      · have h2 : p ≠ a.place := fun hh => h hh.symm
        simp [updMark, h2, h]

/-- Tokens present after consumption were present before. -/
theorem consumeLoop_mark_mem (arcs : List Arc) (m : Marking) (p : String)
    (tok : Token) (h : tok ∈ (consumeLoop arcs m).1 p) : tok ∈ m p := by
  rw [← consumeLoop_restore arcs m p]
  exact List.mem_append_right _ h

/-- Consumed tokens were present in the pre-fire marking. -/
theorem consumeLoop_cons_mem (arcs : List Arc) (m : Marking) (p : String)
    (tok : Token) (h : tok ∈ (consumeLoop arcs m).2.2 p) : tok ∈ m p := by
  rw [← consumeLoop_restore arcs m p]
  exact List.mem_append_left _ h

theorem genFill_length (k i : Nat) : (genFill k i).length = k := by
  induction k generalizing i with
  | zero => simp [genFill]
  | succ n ih => simp [genFill, ih]

/-- Every synthesized placeholder token carries a `gen-`-prefixed
identifier. -/
theorem genFill_id (k i : Nat) (tok : Token) (h : tok ∈ genFill k i) :
    ∃ s, tok.id = genPrefix ++ s := by
  induction k generalizing i with
  | zero => simp [genFill] at h
  | succ n ih =>
      simp only [genFill, List.mem_cons] at h
      rcases h with h | h
      · exact ⟨toString i, by rw [h]⟩
      · exact ih (i + 1) h

/-- Token counts after distribution: when the output sequence covers the
total need, each place gains exactly its summed output weight. -/
theorem distribute_len (arcs : List Arc) (toks : List Token) (m : Marking)
    (p : String) (h : totalW arcs ≤ toks.length) :
    ((distribute arcs toks m) p).length = (m p).length + sumW arcs p := by
  induction arcs generalizing toks m with
  | nil => simp [distribute, sumW]
  | cons a rest ih =>
      rw [totalW_cons] at h
      rw [sumW_cons]
      simp only [distribute]
      rw [ih]
      · by_cases hp : a.place = p
        · have hw : a.weight ≤ toks.length := le_trans (Nat.le_add_right _ _) h
          simp [updMark, hp, List.length_take, Nat.min_eq_left hw, Nat.add_assoc]
        · have h2 : p ≠ a.place := fun hh => hp hh.symm
          simp [updMark, h2, hp]
      · rw [List.length_drop]
        omega

/-- Tokens present after distribution either were already in the marking
or come from the first `totalW` tokens of the output sequence (the
surplus is deposited nowhere). -/
theorem distribute_mem (arcs : List Arc) (toks : List Token) (m : Marking)
    (p : String) (tok : Token) (h : tok ∈ (distribute arcs toks m) p) :
    tok ∈ m p ∨ tok ∈ toks.take (totalW arcs) := by
  induction arcs generalizing toks m with
  | nil => simp [distribute] at h; exact Or.inl h
  | cons a rest ih =>
      rw [totalW_cons]
      simp only [distribute] at h
      rcases ih _ _ h with h1 | h1
      · by_cases hp : p = a.place
        · subst hp
          have h2 : tok ∈ m a.place ++ toks.take a.weight := by
            simpa [updMark] using h1
          rcases List.mem_append.mp h2 with h3 | h3
          · exact Or.inl h3
          · right
            rw [List.take_add]
            exact List.mem_append_left _ h3
        · simp only [updMark, if_neg hp] at h1
          exact Or.inl h1
      · right
        rw [List.take_add]
        exact List.mem_append_right _ h1

/-- The padded output sequence always covers the total output need. -/
theorem padded_len_ge (need : Nat) (l : List Token) :
    need ≤ (l ++ genFill (need - l.length) l.length).length := by
  rw [List.length_append, genFill_length]
  omega

/-- Token counts after the deposit phase: each place gains its summed
output weight (padding guarantees the output sequence is long enough). -/
theorem depositPhase_len (t : Transition) (m1 : Marking)
    (cons : String → List Token) (out : List Token) (hasAct : Bool) (p : String) :
    ((depositPhase t m1 cons out hasAct) p).length
      = (m1 p).length + sumW t.outputArcs p := by
  dsimp only [depositPhase]
  exact distribute_len _ _ _ _ (padded_len_ge _ _)

/-- Case analysis on one `Fire` call: either the firing failed and the
marking is untouched, or it succeeded, the pre-checks held, and the final
marking is the deposit phase applied after consumption. -/
theorem fire_cases (caps : Caps) (t : Transition) (m : Marking) :
    ((fire caps t m).1 ≠ FireResult.fired ∧ (fire caps t m).2 = m)
    ∨ ((fire caps t m).1 = FireResult.fired ∧ availOk t m = true
        ∧ capOk caps t m = true
        ∧ ∃ out hasAct, (fire caps t m).2 =
            depositPhase t (consumeLoop t.inputArcs m).1
              (consumeLoop t.inputArcs m).2.2 out hasAct) := by
  by_cases ha : availOk t m = false
  · exact Or.inl ⟨by simp [fire, ha], by simp [fire, ha]⟩
  · have ha' : availOk t m = true := by revert ha; cases availOk t m <;> simp
    by_cases hc : capOk caps t m = false
    · exact Or.inl ⟨by simp [fire, ha, hc], by simp [fire, ha, hc]⟩
    · have hc' : capOk caps t m = true := by revert hc; cases capOk caps t m <;> simp
      have hrest := restore_consume t.inputArcs m
      by_cases hg : guardRejects t (consumeLoop t.inputArcs m).2.1 = true
      · exact Or.inl ⟨by simp [fire, ha, hc, hg], by simp [fire, ha, hc, hg, hrest]⟩
      · cases hact : t.action with
        | none =>
            refine Or.inr ⟨by simp [fire, ha, hc, hg, hact], ha', hc', [], false, ?_⟩
            simp [fire, ha, hc, hg, hact]
        | some f =>
            cases hf : f (consumeLoop t.inputArcs m).2.1 with
            | error e =>
                exact Or.inl ⟨by simp [fire, ha, hc, hg, hact, hf],
                  by simp [fire, ha, hc, hg, hact, hf, hrest]⟩
            | ok out =>
                refine Or.inr ⟨by simp [fire, ha, hc, hg, hact, hf], ha', hc',
                  out, true, ?_⟩
                simp [fire, ha, hc, hg, hact, hf]

/-- One `Fire` call — successful or failed — preserves the capacity
invariant. -/
theorem fire_preserves_capInv (caps : Caps) (t : Transition) (m : Marking)
    (h : capInv caps m) : capInv caps (fire caps t m).2 := by
  rcases fire_cases caps t m with ⟨_, hm⟩ | ⟨_, ha, hc, out, hasAct, hm⟩
  · rw [hm]; exact h
  · intro p hp
    rw [hm, depositPhase_len, consumeLoop_len]
    have hin : sumW t.inputArcs p ≤ (m p).length := by
      by_cases hpi : ∃ a ∈ t.inputArcs, a.place = p
      · obtain ⟨a, haa, hap⟩ := hpi
        have := List.all_eq_true.mp ha a haa
        rw [hap] at this
        simpa using this
      · rw [sumW_of_not_mem]
        · exact Nat.zero_le _
        · intro a haa hap
          exact hpi ⟨a, haa, hap⟩
    by_cases hout : ∃ a ∈ t.outputArcs, a.place = p
    · obtain ⟨a, haa, hap⟩ := hout
      have hcap := List.all_eq_true.mp hc a haa
      simp only [arcCapOk, Bool.not_eq_eq_eq_not, Bool.not_true,
        decide_eq_false_iff_not, hap] at hcap
      rw [not_and, not_lt] at hcap
      have heff := hcap (hap ▸ hp)
      omega
    · have h0 : sumW t.outputArcs p = 0 := by
        apply sumW_of_not_mem
        intro a haa hap
        exact hout ⟨a, haa, hap⟩
      have hlen := h p hp
      omega

/-- `Place.AddTokens` preserves the capacity invariant (it refuses the
deposit that would overflow). -/
theorem addTokens_preserves_capInv (caps : Caps) (m : Marking) (p : String)
    (ts : List Token) (m1 : Marking) (h : capInv caps m)
    (hok : addTokens caps m p ts = Except.ok m1) : capInv caps m1 := by
  unfold addTokens at hok
  split at hok
  · exact absurd hok (by simp)
  · rename_i hcond
    intro q hq
    have hm1 : m1 = updMark m p (m p ++ ts) := by
      injection hok with h1
      exact h1.symm
    rw [hm1]
    by_cases hqp : q = p
    · subst hqp
      simp only [updMark, if_pos rfl]
      rw [not_and, not_lt] at hcond
      have h2 := hcond hq
      have hlen : (m q ++ ts).length = (m q).length + ts.length :=
        List.length_append _ _
      push_cast at h2 ⊢
      omega
    · simp only [updMark, if_neg hqp]
      exact h q hq

/-- The per-arc capacity test of `Fire` agrees with the spec's
`can-accept`-of-net-production formulation. -/
theorem arcCapOk_iff_specAccept (caps : Caps) (t : Transition) (m : Marking)
    (a : Arc) :
    arcCapOk caps t m a = true
      ↔ (caps a.place < 0 ∨ ((m a.place).length : Int)
          + ((sumW t.outputArcs a.place : Int) - (sumW t.inputArcs a.place : Int))
          ≤ caps a.place) := by
  simp only [arcCapOk, Bool.not_eq_eq_eq_not, Bool.not_true, decide_eq_false_iff_not]
  omega

end PNet

namespace PNet

/-- Claim C1 (code divergence): on a net where the enabled snapshot holds
two transitions competing for one shared token, the bounded-fixpoint
driver `Run` fires both, receives `ErrNotReady` from the loser of the
race, forwards it through the error channel, and ABORTS the run with that
error — a `NotReady` outcome from the snapshot is not tolerated by the
code. -/
theorem c1_run_aborts_on_notReady :
    canFire mRun tRun1 = true ∧ canFire mRun tRun2 = true
    ∧ (runNet capsRun [tRun1, tRun2] 1000 mRun).1 = some RunError.notReady := by
  refine ⟨by decide, by decide, by decide⟩

/-- Claim C2, counterexample: `CanFire` is true for a transition holding
two weight-1 input arcs from a place with a single token, while the
spec's enablement predicate (weights summed across duplicate arcs, plus
output-capacity accounting) is false — the claimed "if and only if" fails. -/
theorem c2_counterexample :
    canFire mDup tDup = true ∧ specEnabled capsDup tDup mDup = false := by
  refine ⟨by decide, by decide⟩

/-- Claim C2, amended: `CanFire` returns true iff every input arc,
checked individually, finds at least its own weight in its source place;
the spec's full enablement predicate (per-place weight sums and
net-production capacity accounting) is instead implemented by `Fire`'s
pre-checks, with which it agrees exactly. -/
theorem c2_canFire_amended (caps : Caps) (t : Transition) (m : Marking) :
    (canFire m t = true ↔ ∀ a ∈ t.inputArcs, a.weight ≤ (m a.place).length)
    ∧ ((availOk t m && capOk caps t m) = true ↔ specEnabled caps t m = true) := by
  constructor
  · simp [canFire, List.all_eq_true]
  · rw [Bool.and_eq_true, specEnabled, Bool.and_eq_true]
    constructor
    · rintro ⟨h1, h2⟩
      refine ⟨h1, ?_⟩
      rw [List.all_eq_true]
      intro a ha
      have h3 := (arcCapOk_iff_specAccept caps t m a).mp
        (List.all_eq_true.mp h2 a ha)
      simpa using h3
    · rintro ⟨h1, h2⟩
      refine ⟨h1, ?_⟩
      rw [capOk, List.all_eq_true]
      intro a ha
      apply (arcCapOk_iff_specAccept caps t m a).mpr
      have h3 := List.all_eq_true.mp h2 a ha
      simpa using h3

/-- Witness for the amended claim C2 at a concrete input. -/
theorem c2_canFire_amended_witness : canFire mDup tDup = true :=
  (c2_canFire_amended capsDup tDup mDup).1.mpr (by decide)

/-- Claim C3: every failed firing leaves the marking untouched — the
consumed tokens are restored, identities included, to the heads of their
source places (a cancelled action surfaces as an action error and takes
the same rollback path) — and a guard failure makes `Fire` return
`NotReady` rather than an error. -/
theorem c3_failed_firing_rollback (caps : Caps) (t : Transition) (m : Marking) :
    ((fire caps t m).1 ≠ FireResult.fired → (fire caps t m).2 = m)
    ∧ (∀ g, t.guard = some g → availOk t m = true → capOk caps t m = true →
        g (consumeLoop t.inputArcs m).2.1 = false →
        fire caps t m = (FireResult.notReady, m)) := by
  constructor
  · intro h
    rcases fire_cases caps t m with ⟨_, hm⟩ | ⟨hf, _⟩
    · exact hm
    · exact absurd hf h
  · intro g hg ha hc hgf
    have hgr : guardRejects t (consumeLoop t.inputArcs m).2.1 = true := by
      simp [guardRejects, hg, hgf]
    have hrest := restore_consume t.inputArcs m
    simp [fire, ha, hc, hgr, hrest]

/-- Witness for claim C3: a concrete guard-false firing returns
`NotReady` with the pre-fire marking. -/
theorem c3_witness :
    fire capsGuard tGuard mGuard = (FireResult.notReady, mGuard) :=
  (c3_failed_firing_rollback capsGuard tGuard mGuard).2
    (fun _ => false) rfl (by decide) (by decide) rfl

/-- Claim C4 (code divergence): in the rate-limiter shape — input arcs
from the permit place and the request queue, output arcs to the result
place and back to the permit place, action returning the permit token
first — a successful firing deposits the action's first output token
positionally: the permit place receives the freshly created result token
and the consumed permit token lands in the result place, so the consumed
identity does not reappear at its pass-through place. -/
theorem c4_resource_identity_broken :
    (fire capsApi tApi mApi).1 = FireResult.fired
    ∧ (fire capsApi tApi mApi).2 apiId = [resultTok]
    ∧ (fire capsApi tApi mApi).2 completedId = [permitTok] := by
  refine ⟨by decide, by decide, by decide⟩

/-- Claim C5: `Fire`'s capacity check compares the post-fire occupancy
`count − input_sum + output_sum` of each bounded output place against its
capacity and returns `NotReady` (without consuming anything) on overflow;
a place with equal summed input and output weights always passes its
per-arc capacity test whenever it respects its capacity bound, even when
it is exactly at capacity. -/
theorem c5_capacity_check (caps : Caps) (t : Transition) (m : Marking) :
    (availOk t m = true → capOk caps t m = false →
      fire caps t m = (FireResult.notReady, m))
    ∧ (∀ p, sumW t.inputArcs p = sumW t.outputArcs p →
        (0 ≤ caps p → ((m p).length : Int) ≤ caps p) →
        ∀ a ∈ t.outputArcs, a.place = p → arcCapOk caps t m a = true) := by
  constructor
  · intro ha hc
    simp [fire, ha, hc]
  · intro p hsum hlen a _ hap
    rw [arcCapOk_iff_specAccept]
    rw [hap, hsum]
    by_cases hb : caps p < 0
    · exact Or.inl hb
    · right
      have h2 := hlen (by omega)
      omega

/-- Witness for claim C5: a transition writing into a full capacity-0
place is turned back with `NotReady`, while its pass-through resource
place (at capacity) passes its own per-arc check. -/
theorem c5_witness :
    fire capsCap tCap mCap = (FireResult.notReady, mCap)
    ∧ arcCapOk capsCap tCap mCap (Arc.mk res5Id 1) = true :=
  ⟨(c5_capacity_check capsCap tCap mCap).1 (by decide) (by decide),
   (c5_capacity_check capsCap tCap mCap).2 res5Id (by decide) (by decide)
     (Arc.mk res5Id 1) (by decide) rfl⟩

/-- Claim C6: from any initial marking that respects the capacities,
every marking reachable through `Fire` and `AddTokens` keeps every
bounded place at or below its capacity; in particular a place of
capacity 0 never holds a token. -/
theorem c6_capacity_invariant (caps : Caps) (ts : List Transition)
    (m0 m : Marking) (h0 : capInv caps m0) (hr : Reach caps ts m0 m) :
    capInv caps m ∧ ∀ p, caps p = 0 → m p = [] := by
  have hinv : capInv caps m := by
    induction hr with
    | refl => exact h0
    | fireStep m1 t ht h ih => exact fire_preserves_capInv caps t m1 ih
    | addStep m1 m2 p toks h hok ih =>
        exact addTokens_preserves_capInv caps m1 p toks m2 ih hok
  refine ⟨hinv, ?_⟩
  intro p hp
  have h1 := hinv p (by rw [hp])
  rw [hp] at h1
  have h2 : (m p).length = 0 := by omega
  exact List.eq_nil_of_length_eq_zero h2

/-- Witness for claim C6: one reachable step on a concrete net keeps the
bounded place within its capacity. -/
theorem c6_witness :
    (((fire caps6 t6 m6).2 b6Id).length : Int) ≤ caps6 b6Id := by
  have h0 : capInv caps6 m6 := by
    intro p hp
    by_cases h : p = b6Id
    · subst h
      simp [m6, caps6, a6Id, b6Id]
    · exfalso
      simp only [caps6, if_neg h] at hp
      omega
  exact (c6_capacity_invariant caps6 [t6] m6 _ h0
    (Reach.fireStep m6 m6 t6 (by simp) (Reach.refl m6))).1 b6Id (by simp [caps6])

end PNet

namespace WF

/-- Claim C7 (code divergence): `Validate` accepts a workflow whose
resource section and channel section share the identifier `x` — the
resource/channel pair of the three cross-section collision checks is
missing (only context-vs-resource and context-vs-channel are checked). -/
theorem c7_resource_channel_collision_accepted :
    validate wfResChan = Except.ok () := by
  rfl

end WF

namespace PNet

/-- Claim C9: in a successful firing whose action returned fewer tokens
than the total output-arc weight, `Fire` pads the output sequence with
`gen-`-prefixed placeholder tokens so that every output arc still
receives exactly its weight, and returned tokens beyond the total output
need are deposited nowhere: every token in the post-marking either was
already present, comes from the first `totalW` returned tokens, or is a
synthesized placeholder. -/
theorem c9_padding_and_surplus (caps : Caps) (t : Transition) (m : Marking)
    (f : List Token → Except Unit (List Token)) (out : List Token)
    (hact : t.action = some f)
    (ha : availOk t m = true) (hc : capOk caps t m = true)
    (hg : guardRejects t (consumeLoop t.inputArcs m).2.1 = false)
    (hf : f (consumeLoop t.inputArcs m).2.1 = Except.ok out)
    (hres : resourcePlaces t = []) :
    (fire caps t m).1 = FireResult.fired
    ∧ (∀ p, ((fire caps t m).2 p).length
        = ((m p).length - sumW t.inputArcs p) + sumW t.outputArcs p)
    ∧ (∀ p tok, tok ∈ (fire caps t m).2 p →
        tok ∈ m p ∨ tok ∈ out.take (totalW t.outputArcs)
          ∨ ∃ s, tok.id = genPrefix ++ s) := by
  have hgr : guardRejects t (consumeLoop t.inputArcs m).2.1 ≠ true := by
    rw [hg]; simp
  have hfire : fire caps t m =
      (FireResult.fired, depositPhase t (consumeLoop t.inputArcs m).1
        (consumeLoop t.inputArcs m).2.2 out true) := by
    simp [fire, ha, hc, hgr, hact, hf]
  refine ⟨by rw [hfire], ?_, ?_⟩
  · intro p
    rw [hfire]
    simp only
    rw [depositPhase_len, consumeLoop_len]
  · intro p tok htok
    rw [hfire] at htok
    simp only [depositPhase, hres, List.flatMap_nil, List.append_nil,
      if_pos rfl] at htok
    rcases distribute_mem _ _ _ _ _ htok with h1 | h1
    · exact Or.inl (consumeLoop_mark_mem _ _ _ _ h1)
    · rw [List.take_append_eq_append_take] at h1
      rcases List.mem_append.mp h1 with h2 | h2
      · exact Or.inr (Or.inl h2)
      · refine Or.inr (Or.inr ?_)
        exact genFill_id _ _ _ (List.mem_of_mem_take h2)

/-- Witness for claim C9: a concrete firing with a one-token action
return against a two-token output need succeeds. -/
theorem c9_witness : (fire caps9 t9 m9).1 = FireResult.fired :=
  (c9_padding_and_surplus caps9 t9 m9 f9 [outTok9] rfl (by decide) (by decide)
    rfl rfl (by decide)).1

end PNet


namespace WF

theorem addTransNet_places (net : CNet) (t : TShape) :
    (addTransNet net t).places = net.places := by
  unfold addTransNet
  split <;> rfl

theorem hasPlace_any (net : CNet) (x : String) :
    hasPlace net x = net.places.any (fun q => q.id = x) := rfl

/-- Adding a place never removes an identifier from the registry. -/
theorem hasPlace_mono (net : CNet) (pl : CPlace) (x : String)
    (h : hasPlace net x = true) : hasPlace (addPlaceNet net pl) x = true := by
  unfold hasPlace addPlaceNet at *
  rw [List.any_eq_true] at h
  obtain ⟨q, hq, hqx⟩ := h
  split
  · rw [List.any_eq_true]
    refine ⟨if q.id = pl.id then pl else q, List.mem_map.mpr ⟨q, hq, rfl⟩, ?_⟩
    simp only [decide_eq_true_eq] at hqx ⊢
    by_cases hqp : q.id = pl.id
    · rw [if_pos hqp, ← hqp]
      exact hqx
    · rw [if_neg hqp]
      exact hqx
  · rw [List.any_eq_true]
    exact ⟨q, List.mem_append_left _ hq, hqx⟩

/-- After `AddPlace`, the added identifier is in the registry. -/
theorem hasPlace_addPlaceNet_self (net : CNet) (pl : CPlace) :
    hasPlace (addPlaceNet net pl) pl.id = true := by
  unfold hasPlace addPlaceNet
  split
  · rename_i h
    rw [List.any_eq_true] at h ⊢
    obtain ⟨q, hq, hqx⟩ := h
    refine ⟨if q.id = pl.id then pl else q, List.mem_map.mpr ⟨q, hq, rfl⟩, ?_⟩
    simp only [decide_eq_true_eq] at hqx
    rw [if_pos hqx]
    simp
  · rw [List.any_eq_true]
    exact ⟨pl, List.mem_append_right _ (by simp), by simp⟩

/-- Adding a place with a fresh identifier appends it. -/
theorem addPlaceNet_fresh (net : CNet) (pl : CPlace)
    (h : hasPlace net pl.id = false) :
    (addPlaceNet net pl).places = net.places ++ [pl] := by
  unfold addPlaceNet
  rw [hasPlace_any] at h
  rw [if_neg (by rw [h]; simp)]

end WF

namespace WF

theorem find_map_overwrite (l : List TShape) (t : TShape)
    (h : l.any (fun q => q.id = t.id) = true) :
    (l.map (fun q => if q.id = t.id then t else q)).find?
      (fun q => q.id = t.id) = some t := by
  induction l with
  | nil => simp at h
  | cons q rest ih =>
      by_cases hq : q.id = t.id
      · simp [List.find?, hq]
      · have h2 : rest.any (fun q => q.id = t.id) = true := by
          simp only [List.any_cons, Bool.or_eq_true, decide_eq_true_eq] at h
          rcases h with h | h
          · exact absurd h hq
          · rw [List.any_eq_true]
            simpa using h
        simp only [List.map_cons, if_neg hq]
        rw [List.find?]
        simp only [decide_eq_false hq]
        exact ih h2

theorem find_append_singleton (l : List TShape) (t : TShape)
    (h : l.any (fun q => q.id = t.id) = false) :
    (l ++ [t]).find? (fun q => q.id = t.id) = some t := by
  induction l with
  | nil => simp [List.find?]
  | cons q rest ih =>
      simp only [List.any_cons, Bool.or_eq_false_iff] at h
      rw [List.cons_append, List.find?]
      simp only [h.1]
      exact ih h.2

/-- After `AddTransition`, looking up the added identifier finds the
added transition. -/
theorem lookupTrans_addTransNet (net : CNet) (t : TShape) :
    lookupTrans (addTransNet net t) t.id = some t := by
  unfold lookupTrans addTransNet
  split
  · rename_i h
    exact find_map_overwrite net.transitions t h
  · rename_i h
    exact find_append_singleton net.transitions t
      (by revert h; cases net.transitions.any (fun q => q.id = t.id) <;> simp)

end WF

namespace WF

/-- Claim C8: for a barrier gateway whose referenced list (`inputs`, or
`wait_for` when `inputs` is empty) is non-empty and whose complete-place
identifier is fresh, when every referenced task has its `_done` place,
`compileGateway` succeeds and emits exactly one `<gateway_id>_complete`
place of capacity 1 plus one transition whose input arcs are weight-1
arcs from the referenced `_done` places and whose sole output arc is a
weight-1 arc to the complete place; when some referenced task lacks its
`_done` place, compilation fails with an error. -/
theorem c8_barrier_wiring (g : Gateway) (net : CNet)
    (hty : g.type = "barrier") (hne : waitForOf g ≠ [])
    (hfresh : hasPlace net (g.id ++ completeSuffix) = false) :
    ((∀ w ∈ waitForOf g, hasPlace net (w ++ doneSuffix) = true) →
      ∃ net1, compileGateway g net = Except.ok net1
        ∧ net1.places.filter (fun q => q.id = g.id ++ completeSuffix)
            = [CPlace.mk (g.id ++ completeSuffix) (g.id ++ " Complete") 1 []]
        ∧ lookupTrans net1 g.id = some (TShape.mk g.id g.id
            ((waitForOf g).map (fun w => PNet.Arc.mk (w ++ doneSuffix) 1))
            [PNet.Arc.mk (g.id ++ completeSuffix) 1]))
    ∧ ((∃ w ∈ waitForOf g, hasPlace net (w ++ doneSuffix) = false
          ∧ w ++ doneSuffix ≠ g.id ++ completeSuffix) →
        ∃ e, compileGateway g net = Except.error e) := by
  have hie : (waitForOf g).isEmpty = false := by
    cases hwf : waitForOf g with
    | nil => exact absurd hwf hne
    | cons w ws => simp
  have hplaces : (addPlaceNet net (CPlace.mk (g.id ++ completeSuffix)
      (g.id ++ " Complete") 1 [])).places
        = net.places ++ [CPlace.mk (g.id ++ completeSuffix)
            (g.id ++ " Complete") 1 []] :=
    addPlaceNet_fresh net _ hfresh
  constructor
  · intro hall
    have hfind : (waitForOf g).find? (fun w =>
        !(hasPlace (addPlaceNet net (CPlace.mk (g.id ++ completeSuffix)
          (g.id ++ " Complete") 1 [])) (w ++ doneSuffix))) = none := by
      rw [List.find?_eq_none]
      intro w hw
      have h1 := hasPlace_mono net (CPlace.mk (g.id ++ completeSuffix)
        (g.id ++ " Complete") 1 []) _ (hall w hw)
      simp [h1]
    refine ⟨addTransNet (addPlaceNet net (CPlace.mk (g.id ++ completeSuffix)
        (g.id ++ " Complete") 1 []))
      (TShape.mk g.id g.id
        ((waitForOf g).map (fun w => PNet.Arc.mk (w ++ doneSuffix) 1))
        [PNet.Arc.mk (g.id ++ completeSuffix) 1]), ?_, ?_, ?_⟩
    · simp only [compileGateway, hty, hie, hfind]
      simp
    · rw [addTransNet_places, hplaces, List.filter_append]
      have h2 : net.places.filter (fun q => q.id = g.id ++ completeSuffix)
          = [] := by
        rw [List.filter_eq_nil_iff]
        intro q hq
        rw [hasPlace_any] at hfresh
        have h3 := List.any_eq_false.mp (by rw [hfresh]) q hq
        simpa using h3
      rw [h2]
      simp
    · exact lookupTrans_addTransNet _ _
  · rintro ⟨w, hw, hmiss, hneq⟩
    have hpred : (!(hasPlace (addPlaceNet net (CPlace.mk (g.id ++ completeSuffix)
        (g.id ++ " Complete") 1 [])) (w ++ doneSuffix))) = true := by
      rw [hasPlace_any, hplaces, List.any_append]
      rw [hasPlace_any] at hmiss
      rw [hmiss]
      simp
      exact fun h => hneq h.symm
    have hsome : ((waitForOf g).find? (fun w =>
        !(hasPlace (addPlaceNet net (CPlace.mk (g.id ++ completeSuffix)
          (g.id ++ " Complete") 1 [])) (w ++ doneSuffix)))).isSome = true :=
      List.find?_isSome.mpr ⟨w, hw, hpred⟩
    obtain ⟨w1, hw1⟩ := Option.isSome_iff_exists.mp hsome
    refine ⟨"barrier " ++ g.id ++ " waits on missing completion place "
      ++ w1 ++ doneSuffix, ?_⟩
    simp only [compileGateway, hty, hie, hw1]
    simp

end WF

namespace WF

/-- Witness for claim C8 at the S5 wiring scenario. -/
theorem c8_witness :
    ∃ net1, compileGateway gBar netBar = Except.ok net1
      ∧ net1.places.filter (fun q => q.id = gBar.id ++ completeSuffix)
          = [CPlace.mk (gBar.id ++ completeSuffix) (gBar.id ++ " Complete") 1 []]
      ∧ lookupTrans net1 gBar.id = some (TShape.mk gBar.id gBar.id
          ((waitForOf gBar).map (fun w => PNet.Arc.mk (w ++ doneSuffix) 1))
          [PNet.Arc.mk (gBar.id ++ completeSuffix) 1]) :=
  (c8_barrier_wiring gBar netBar rfl (by decide) (by decide)).1 (by decide)

theorem checkContexts_ids (rIDs chIDs : List String) (cxs : List ContextDecl)
    (acc out : List String)
    (h : checkContexts rIDs chIDs cxs acc = Except.ok out) :
    out = acc ++ cxs.map (fun c => c.id) := by
  induction cxs generalizing acc with
  | nil =>
      simp only [checkContexts] at h
      injection h with h
      simp [h.symm]
  | cons c rest ih =>
      rw [checkContexts] at h
      split at h
      · exact absurd h (by simp)
      · split at h
        · exact absurd h (by simp)
        · split at h
          · exact absurd h (by simp)
          · split at h
            · exact absurd h (by simp)
            · have h2 := ih _ h
              simpa using h2

theorem checkTasks_ok (ch rs cx : List String) (tasks : List Task)
    (acc out : List String)
    (h : checkTasks ch rs cx tasks acc = Except.ok out) :
    (∀ t ∈ tasks, checkTaskRefs ch rs cx t = Except.ok ())
    ∧ out = acc ++ tasks.map (fun t => t.id) := by
  induction tasks generalizing acc with
  | nil =>
      simp only [checkTasks] at h
      injection h with h
      simp [h.symm]
  | cons t rest ih =>
      rw [checkTasks] at h
      split at h
      · exact absurd h (by simp)
      · split at h
        · exact absurd h (by simp)
        · split at h
          · exact absurd h (by simp)
          · rename_i u heq
            obtain ⟨ih1, ih2⟩ := ih _ h
            refine ⟨?_, by simpa using ih2⟩
            intro t1 ht1
            rcases List.mem_cons.mp ht1 with rfl | h1
            · cases u
              exact heq
            · exact ih1 _ h1

theorem checkTaskRefs_ctx (ch rs cx : List String) (t : Task)
    (h : checkTaskRefs ch rs cx t = Except.ok ()) :
    t.context ≠ "" → t.context ∈ cx := by
  intro hne
  unfold checkTaskRefs at h
  split at h
  · exact absurd h (by simp)
  · split at h
    · exact absurd h (by simp)
    · split at h
      · exact absurd h (by simp)
      · split at h
        · exact absurd h (by simp)
        · split at h
          · exact absurd h (by simp)
          · split at h
            · exact absurd h (by simp)
            · rename_i hcond
              rw [not_and] at hcond
              have h2 := hcond hne
              rwa [not_not] at h2

theorem checkGateways_refs (taskIDs : List String) (gs : List Gateway)
    (acc : List String) (h : checkGateways taskIDs gs acc = Except.ok ()) :
    ∀ g ∈ gs, ∀ w ∈ g.inputs ++ g.waitFor, w ∈ taskIDs := by
  induction gs generalizing acc with
  | nil => simp
  | cons g rest ih =>
      rw [checkGateways] at h
      split at h
      · exact absurd h (by simp)
      · split at h
        · exact absurd h (by simp)
        · split at h
          · split at h
            · exact absurd h (by simp)
            · exact absurd h (by simp)
          · rename_i hfind
            intro g1 hg1
            rcases List.mem_cons.mp hg1 with rfl | h1
            · intro w hw
              have h2 := List.find?_eq_none.mp hfind w hw
              simp only [decide_eq_true_eq, not_or, not_not] at h2
              exact h2.2
            · exact ih _ h g1 h1

end WF

namespace WF

theorem ensureDone_mono (net : CNet) (id x : String)
    (h : hasPlace net x = true) : hasPlace (ensureDone net id) x = true := by
  unfold ensureDone
  split
  · exact h
  · exact hasPlace_mono _ _ _ h

theorem ensureDone_self (net : CNet) (id : String) :
    hasPlace (ensureDone net id) (id ++ doneSuffix) = true := by
  unfold ensureDone
  split
  · assumption
  · exact hasPlace_addPlaceNet_self net _

theorem compileTaskStep_ok (net : CNet) (t : Task)
    (h : t.context ≠ "" → hasPlace net t.context = true) :
    ∃ net1, compileTaskStep net t = Except.ok net1 := by
  have hcond : ¬(t.context ≠ "" ∧ hasPlace net t.context = false) := by
    rintro ⟨h1, h2⟩
    rw [h h1] at h2
    exact absurd h2 (by simp)
  unfold compileTaskStep
  rw [if_neg hcond]
  exact ⟨_, rfl⟩

theorem compileTaskStep_mono (net net1 : CNet) (t : Task) (x : String)
    (hok : compileTaskStep net t = Except.ok net1)
    (h : hasPlace net x = true) : hasPlace net1 x = true := by
  unfold compileTaskStep at hok
  split at hok
  · exact absurd hok (by simp)
  · injection hok with h1
    rw [← h1, hasPlace_any, addTransNet_places, ← hasPlace_any]
    exact ensureDone_mono _ _ _ h

theorem compileTaskStep_done (net net1 : CNet) (t : Task)
    (hok : compileTaskStep net t = Except.ok net1) :
    hasPlace net1 (t.id ++ doneSuffix) = true := by
  unfold compileTaskStep at hok
  split at hok
  · exact absurd hok (by simp)
  · injection hok with h1
    rw [← h1, hasPlace_any, addTransNet_places, ← hasPlace_any]
    exact ensureDone_self _ _

theorem compileTasks_mono (tasks : List Task) (net net1 : CNet) (x : String)
    (hok : compileTasks net tasks = Except.ok net1)
    (h : hasPlace net x = true) : hasPlace net1 x = true := by
  induction tasks generalizing net with
  | nil =>
      simp only [compileTasks] at hok
      injection hok with h1
      rw [← h1]
      exact h
  | cons t rest ih =>
      rw [compileTasks] at hok
      split at hok
      · exact absurd hok (by simp)
      · rename_i mid hmid
        exact ih _ hok (compileTaskStep_mono _ _ _ _ hmid h)

theorem compileTasks_done (tasks : List Task) (net net1 : CNet)
    (hok : compileTasks net tasks = Except.ok net1) :
    ∀ t ∈ tasks, hasPlace net1 (t.id ++ doneSuffix) = true := by
  induction tasks generalizing net with
  | nil => simp
  | cons t rest ih =>
      rw [compileTasks] at hok
      split at hok
      · exact absurd hok (by simp)
      · rename_i mid hmid
        intro t1 ht1
        rcases List.mem_cons.mp ht1 with rfl | h1
        · exact compileTasks_mono _ _ _ _ hok (compileTaskStep_done _ _ _ hmid)
        · exact ih _ hok t1 h1

theorem compileTasks_ok (tasks : List Task) (net : CNet)
    (h : ∀ t ∈ tasks, t.context ≠ "" → hasPlace net t.context = true) :
    ∃ net1, compileTasks net tasks = Except.ok net1 := by
  induction tasks generalizing net with
  | nil => exact ⟨net, by simp [compileTasks]⟩
  | cons t rest ih =>
      obtain ⟨mid, hmid⟩ := compileTaskStep_ok net t (h t (by simp))
      obtain ⟨net1, hnet1⟩ := ih mid (fun t1 ht1 hne =>
        compileTaskStep_mono _ _ _ _ hmid (h t1 (List.mem_cons_of_mem _ ht1) hne))
      refine ⟨net1, ?_⟩
      rw [compileTasks, hmid]
      exact hnet1

theorem compileGateway_mono (g : Gateway) (net net1 : CNet) (x : String)
    (hok : compileGateway g net = Except.ok net1)
    (h : hasPlace net x = true) : hasPlace net1 x = true := by
  simp only [compileGateway] at hok
  split at hok
  · split at hok
    · injection hok with h1
      rw [← h1]
      exact h
    · split at hok
      · exact absurd hok (by simp)
      · injection hok with h1
        rw [← h1, hasPlace_any, addTransNet_places, ← hasPlace_any]
        exact hasPlace_mono _ _ _ h
  · injection hok with h1
    rw [← h1]
    exact h

theorem compileGateway_ok (g : Gateway) (net : CNet)
    (h : g.type = "barrier" → ∀ w ∈ waitForOf g,
      hasPlace net (w ++ doneSuffix) = true) :
    ∃ net1, compileGateway g net = Except.ok net1 := by
  by_cases hty : g.type = "barrier"
  · by_cases hie : (waitForOf g).isEmpty = true
    · exact ⟨net, by simp [compileGateway, hty, hie]⟩
    · have hie2 : (waitForOf g).isEmpty = false := by
        revert hie
        cases (waitForOf g).isEmpty <;> simp
      have hfind : (waitForOf g).find? (fun w =>
          !(hasPlace (addPlaceNet net (CPlace.mk (g.id ++ completeSuffix)
            (g.id ++ " Complete") 1 [])) (w ++ doneSuffix))) = none := by
        rw [List.find?_eq_none]
        intro w hw
        have h1 := hasPlace_mono net (CPlace.mk (g.id ++ completeSuffix)
          (g.id ++ " Complete") 1 []) _ (h hty w hw)
        simp [h1]
      refine ⟨addTransNet (addPlaceNet net (CPlace.mk (g.id ++ completeSuffix)
          (g.id ++ " Complete") 1 []))
        (TShape.mk g.id g.id
          ((waitForOf g).map (fun w => PNet.Arc.mk (w ++ doneSuffix) 1))
          [PNet.Arc.mk (g.id ++ completeSuffix) 1]), ?_⟩
      simp only [compileGateway, hty, hie2, hfind]
      simp
  · exact ⟨net, by simp [compileGateway, hty]⟩

theorem compileGateways_ok (gs : List Gateway) (net : CNet)
    (h : ∀ g ∈ gs, g.type = "barrier" → ∀ w ∈ waitForOf g,
      hasPlace net (w ++ doneSuffix) = true) :
    ∃ net1, compileGateways net gs = Except.ok net1 := by
  induction gs generalizing net with
  | nil => exact ⟨net, by simp [compileGateways]⟩
  | cons g rest ih =>
      obtain ⟨mid, hmid⟩ := compileGateway_ok g net (h g (by simp))
      obtain ⟨net1, hnet1⟩ := ih mid (fun g1 hg1 hty w hw =>
        compileGateway_mono _ _ _ _ hmid (h g1 (List.mem_cons_of_mem _ hg1) hty w hw))
      refine ⟨net1, ?_⟩
      rw [compileGateways, hmid]
      exact hnet1

end WF

namespace WF

theorem compileChannels_mono (chs : List Channel) (net : CNet) (x : String)
    (h : hasPlace net x = true) : hasPlace (compileChannels net chs) x = true := by
  induction chs generalizing net with
  | nil => exact h
  | cons c rest ih =>
      rw [compileChannels]
      exact ih _ (hasPlace_mono _ _ _ h)

theorem compileContexts_mono (cxs : List ContextDecl) (net : CNet) (x : String)
    (h : hasPlace net x = true) : hasPlace (compileContexts net cxs) x = true := by
  induction cxs generalizing net with
  | nil => exact h
  | cons c rest ih =>
      rw [compileContexts]
      exact ih _ (hasPlace_mono _ _ _ h)

/-- Compiler step 2 creates a place for every declared context. -/
theorem compileContexts_has (cxs : List ContextDecl) (net : CNet) :
    ∀ c ∈ cxs, hasPlace (compileContexts net cxs) c.id = true := by
  induction cxs generalizing net with
  | nil => simp
  | cons c rest ih =>
      intro c1 hc1
      rcases List.mem_cons.mp hc1 with rfl | h1
      · rw [compileContexts]
        exact compileContexts_mono rest _ _ (hasPlace_addPlaceNet_self net _)
      · rw [compileContexts]
        exact ih _ c1 h1

/-- Claim C10: every workflow accepted by `Validate` compiles without an
error — the two compile-time failure branches (missing context place,
barrier waiting on a missing `_done` place) are unreachable after
validation. -/
theorem c10_validate_implies_compile (wf : Workflow)
    (h : validate wf = Except.ok ()) : ∃ net, compile wf = Except.ok net := by
  unfold validate at h
  split at h
  · exact absurd h (by simp)
  · rename_i rIDs hres
    split at h
    · exact absurd h (by simp)
    · rename_i chIDs hch
      split at h
      · exact absurd h (by simp)
      · rename_i cxIDs hcx
        split at h
        · exact absurd h (by simp)
        · rename_i tIDs htks
          have hcxids := checkContexts_ids _ _ _ _ _ hcx
          obtain ⟨htref, htids⟩ := checkTasks_ok _ _ _ _ _ _ htks
          have hgw := checkGateways_refs _ _ _ h
          have hctx3 : ∀ c ∈ wf.contexts,
              hasPlace (compileChannels (compileContexts
                (compileResources (CNet.mk wf.name [] []) wf.resources)
                wf.contexts) wf.channels) c.id = true := by
            intro c hc
            exact compileChannels_mono _ _ _ (compileContexts_has _ _ c hc)
          obtain ⟨net4, hnet4⟩ := compileTasks_ok wf.tasks _ (by
            intro t ht hne
            have h1 := checkTaskRefs_ctx _ _ _ _ (htref t ht) hne
            rw [hcxids] at h1
            simp only [List.nil_append, List.mem_map] at h1
            obtain ⟨c, hc, hcid⟩ := h1
            rw [← hcid]
            exact hctx3 c hc)
          obtain ⟨net5, hnet5⟩ := compileGateways_ok wf.gateways net4 (by
            intro g hg hty w hw
            have hw2 : w ∈ g.inputs ++ g.waitFor := by
              unfold waitForOf at hw
              split at hw
              · exact List.mem_append_right _ hw
              · exact List.mem_append_left _ hw
            have h1 := hgw g hg w hw2
            rw [htids] at h1
            simp only [List.nil_append, List.mem_map] at h1
            obtain ⟨t, ht, htid⟩ := h1
            rw [← htid]
            exact compileTasks_done _ _ _ hnet4 t ht)
          refine ⟨net5, ?_⟩
          unfold compile
          simp only [hnet4]
          exact hnet5

/-- Witness for claim C10: the S5 workflow validates and compiles. -/
theorem c10_witness : ∃ net, compile wfS5 = Except.ok net :=
  c10_validate_implies_compile wfS5 rfl

end WF
